import Mathlib

/-!
Shallow embedding of the portfolio backtest engine in `src/backtest.py`
(`compute_returns`, `backtest_portfolio`, `compute_metrics`).

pandas/numpy float cells are modelled by an IEEE-style scalar `F`: a finite
value held exactly as a rational, `+∞`, `−∞`, or `NaN`.  A missing price in a
pandas `DataFrame` is stored as `NaN`, so "missing" and "not a number" are the
same value, exactly as in pandas.  `pct_change` is modelled without forward or
backward filling (`fill_method=None` semantics): a `NaN` operand makes the
resulting cell `NaN`.  The square-root-dependent metrics (`daily_vol`,
`annual_vol`, `sharpe`) live in a mirror scalar `FR` over the reals, since
`sqrt` leaves the rationals.
-/

/-- IEEE-style scalar for a pandas float cell: finite rational, `+∞`, `−∞`,
or `NaN` (which also encodes a missing value, as in pandas). -/
inductive F where
  | fin (q : ℚ)
  | pinf
  | ninf
  | nan
deriving DecidableEq

namespace F

/-- Returns `true` iff the cell holds a finite value. -/
def isFinite : F → Bool
  | fin _ => true
  | _ => false

/-- pandas `isna`: `true` exactly on `NaN`. -/
def isNa : F → Bool
  | nan => true
  | _ => false

/-- IEEE addition. -/
def add : F → F → F
  | nan, _ => nan
  | _, nan => nan
  | fin a, fin b => fin (a + b)
  | fin _, pinf => pinf
  | pinf, fin _ => pinf
  | fin _, ninf => ninf
  | ninf, fin _ => ninf
  | pinf, pinf => pinf
  | ninf, ninf => ninf
  | pinf, ninf => nan
  | ninf, pinf => nan

/-- IEEE negation. -/
def neg : F → F
  | fin a => fin (-a)
  | pinf => ninf
  | ninf => pinf
  | nan => nan

/-- IEEE subtraction. -/
def sub (a b : F) : F := add a (neg b)

/-- IEEE multiplication (`0 * ∞ = NaN`). -/
def mul : F → F → F
  | nan, _ => nan
  | _, nan => nan
  | fin a, fin b => fin (a * b)
  | fin a, pinf => if 0 < a then pinf else if a < 0 then ninf else nan
  | pinf, fin a => if 0 < a then pinf else if a < 0 then ninf else nan
  | fin a, ninf => if 0 < a then ninf else if a < 0 then pinf else nan
  | ninf, fin a => if 0 < a then ninf else if a < 0 then pinf else nan
  | pinf, pinf => pinf
  | pinf, ninf => ninf
  | ninf, pinf => ninf
  | ninf, ninf => pinf

/-- IEEE division, as numpy produces it: a nonzero finite value divided by
zero gives a signed infinity (zero is `+0`), `0/0 = NaN`, `∞/∞ = NaN`. -/
def div : F → F → F
  | nan, _ => nan
  | _, nan => nan
  | fin a, fin b =>
      if b = 0 then (if a = 0 then nan else if 0 < a then pinf else ninf)
      else fin (a / b)
  | fin _, pinf => fin 0
  | fin _, ninf => fin 0
  | pinf, fin b => if 0 ≤ b then pinf else ninf
  | ninf, fin b => if 0 ≤ b then ninf else pinf
  | pinf, pinf => nan
  | pinf, ninf => nan
  | ninf, pinf => nan
  | ninf, ninf => nan

instance : Add F := ⟨add⟩

instance : Neg F := ⟨neg⟩

instance : Sub F := ⟨sub⟩

instance : Mul F := ⟨mul⟩

instance : Div F := ⟨div⟩

/-- Comparison used by pandas `max`/`min` on non-`NaN` cells
(`−∞ <` finite `< +∞`); `NaN` operands are filtered out by the callers
(`skipna` handling), the value returned for them is irrelevant. -/
def le : F → F → Bool
  | nan, _ => false
  | _, nan => false
  | ninf, _ => true
  | fin _, ninf => false
  | fin a, fin b => decide (a ≤ b)
  | fin _, pinf => true
  | pinf, pinf => true
  | pinf, _ => false

/-- Binary maximum on non-`NaN` cells. -/
def maxF (a b : F) : F := if le a b then b else a

/-- Binary minimum on non-`NaN` cells. -/
def minF (a b : F) : F := if le a b then a else b

/-- Worker for `cummax`; `acc = NaN` means "no non-`NaN` cell seen yet". -/
def cummaxGo (acc : F) : List F → List F
  | [] => []
  | x :: xs =>
      if x = nan then nan :: cummaxGo acc xs
      else
        let m := if acc = nan then x else maxF acc x
        m :: cummaxGo m xs

/-- pandas `Series.cummax` (default `skipna=True`): a `NaN` cell stays `NaN`,
every other cell becomes the running maximum of the non-`NaN` cells so far. -/
def cummax (l : List F) : List F := cummaxGo nan l

/-- Worker for `seriesMin`; `acc = NaN` means "no non-`NaN` cell seen yet". -/
def minGo (acc : F) : List F → F
  | [] => acc
  | x :: xs =>
      if x = nan then minGo acc xs
      else minGo (if acc = nan then x else minF acc x) xs

/-- pandas `Series.min` (default `skipna=True`): minimum of the non-`NaN`
cells, `NaN` on an empty or all-`NaN` series. -/
def seriesMin (l : List F) : F := minGo nan l

/-- numpy/pandas row sum of a list of cells with `skipna=True` (the pandas
default, `min_count=0`): `NaN` cells are skipped, and an empty or all-`NaN`
list sums to `0.0`.  Non-`NaN` special values still take part, so
`∞ + (-∞) = NaN` can surface. -/
def sumF (l : List F) : F := (l.filter fun x => !x.isNa).foldl add (fin 0)

/-- Worker for `cumprod` (default `skipna=True`): a `NaN` cell stays `NaN`
and is skipped by the running product. -/
def cumprodGo (acc : F) : List F → List F
  | [] => []
  | x :: xs =>
      if x = nan then nan :: cumprodGo acc xs
      else
        let a := mul acc x
        a :: cumprodGo a xs

/-- pandas `Series.cumprod` (default `skipna=True`). -/
def cumprod (l : List F) : List F := cumprodGo (fin 1) l

end F

/-- One cell of `DataFrame.pct_change()`: the percentage change from the
previous row's price `p` to the current row's price `c`. -/
def pctCell (p c : F) : F := (c - p) / p

/-- One row of `DataFrame.pct_change()`: cell-wise change between two
consecutive price rows. -/
def pctRow (prev cur : List F) : List F := List.zipWith pctCell prev cur

/-- pandas `DataFrame.pct_change()` without filling (`fill_method=None`
semantics): the first row is all `NaN`, row `t ≥ 1` is the cell-wise change
from row `t-1` to row `t`; any `NaN` operand makes the result cell `NaN`. -/
def pct_change (rows : List (List F)) : List (List F) :=
  match rows with
  | [] => []
  | r0 :: rest => (r0.map fun _ => F.nan) :: List.zipWith pctRow (r0 :: rest) rest

/-- pandas `DataFrame.dropna()`: drop every row that contains a `NaN`. -/
def dropna (rows : List (List F)) : List (List F) :=
  rows.filter fun r => r.all fun x => !x.isNa

/-- Model of `compute_returns` from `src/backtest.py`:
`prices.pct_change().dropna()`. -/
def compute_returns (prices : List (List F)) : List (List F) :=
  dropna (pct_change prices)

/-- Model of `backtest_portfolio` from `src/backtest.py`.  Weights are the finite
floats supplied by the caller; `w / w.sum()` is numpy broadcasting, so a zero
weight sum produces `NaN`/`±∞` normalized weights; `(results * w).sum(axis=1)`
is the row-wise weighted sum; the equity curve is
`(1 + port_returns).cumprod() * initial_amount`. -/
def backtest_portfolio (prices : List (List F)) (weights : List ℚ)
    (initial_amount : ℚ) : List F × List F :=
  let results := compute_returns prices
  let w := weights.map fun wi => F.fin wi / F.fin weights.sum
  let port_returns := results.map fun row => F.sumF (List.zipWith (· * ·) row w)
  let equity_curve :=
    (F.cumprod (port_returns.map fun r => F.fin 1 + r)).map (· * F.fin initial_amount)
  (equity_curve, port_returns)

namespace F

@[simp] theorem add_fin_fin (a b : ℚ) : add (fin a) (fin b) = fin (a + b) := rfl

@[simp] theorem fin_add_fin (a b : ℚ) : fin a + fin b = fin (a + b) := rfl

@[simp] theorem mul_fin_fin (a b : ℚ) : mul (fin a) (fin b) = fin (a * b) := rfl

@[simp] theorem fin_mul_fin (a b : ℚ) : fin a * fin b = fin (a * b) := rfl

@[simp] theorem fin_sub_fin (a b : ℚ) : fin a - fin b = fin (a - b) := by
  show fin (a + -b) = fin (a - b)
  rw [← sub_eq_add_neg]

theorem fin_div_fin (a b : ℚ) (h : b ≠ 0) : fin a / fin b = fin (a / b) := by
  show div (fin a) (fin b) = fin (a / b)
  simp [div, h]

@[simp] theorem isNa_fin (q : ℚ) : isNa (fin q) = false := rfl

@[simp] theorem isNa_nan : isNa nan = true := rfl

@[simp] theorem fin_eq_nan (q : ℚ) : (fin q = nan) = False := by simp

@[simp] theorem isFinite_fin (q : ℚ) : isFinite (fin q) = true := rfl

@[simp] theorem mul_nan_right (x : F) : x * nan = nan := by cases x <;> rfl

@[simp] theorem mul_nan_left (x : F) : nan * x = nan := by cases x <;> rfl

@[simp] theorem add_nan_right (x : F) : x + nan = nan := by cases x <;> rfl

@[simp] theorem add_nan_left (x : F) : nan + x = nan := by cases x <;> rfl

end F

/-- IEEE-style scalar over the reals, for the metrics whose computation leaves
the rationals (`sqrt`). -/
inductive FR where
  | fin (r : ℝ)
  | pinf
  | ninf
  | nan

namespace FR

open Classical

/-- IEEE multiplication over the real-valued scalar. -/
noncomputable def mul : FR → FR → FR
  | nan, _ => nan
  | _, nan => nan
  | fin a, fin b => fin (a * b)
  | fin a, pinf => if 0 < a then pinf else if a < 0 then ninf else nan
  | pinf, fin a => if 0 < a then pinf else if a < 0 then ninf else nan
  | fin a, ninf => if 0 < a then ninf else if a < 0 then pinf else nan
  | ninf, fin a => if 0 < a then ninf else if a < 0 then pinf else nan
  | pinf, pinf => pinf
  | pinf, ninf => ninf
  | ninf, pinf => ninf
  | ninf, ninf => pinf

/-- IEEE division over the real-valued scalar. -/
noncomputable def div : FR → FR → FR
  | nan, _ => nan
  | _, nan => nan
  | fin a, fin b =>
      if b = 0 then (if a = 0 then nan else if 0 < a then pinf else ninf)
      else fin (a / b)
  | fin _, pinf => fin 0
  | fin _, ninf => fin 0
  | pinf, fin b => if 0 ≤ b then pinf else ninf
  | ninf, fin b => if 0 ≤ b then ninf else pinf
  | pinf, pinf => nan
  | pinf, ninf => nan
  | ninf, pinf => nan
  | ninf, ninf => nan

/-- The Python comparison `a != b` on floats: `NaN` compares unequal to
everything (including itself). -/
noncomputable def neBool : FR → FR → Bool
  | nan, _ => true
  | _, nan => true
  | fin a, fin b => decide (a ≠ b)
  | fin _, pinf => true
  | fin _, ninf => true
  | pinf, pinf => false
  | ninf, ninf => false
  | pinf, _ => true
  | ninf, _ => true

/-- numpy `sqrt` applied to a (possibly special) scalar: negative finite
arguments give `NaN`, as does `−∞`. -/
noncomputable def sqrtF : F → FR
  | F.fin q => if q < 0 then nan else fin (Real.sqrt q)
  | F.pinf => pinf
  | F.ninf => nan
  | F.nan => nan

end FR

/-- Embedding of the rational-valued scalar into the real-valued one. -/
noncomputable def F.toFR : F → FR
  | F.fin q => FR.fin (q : ℝ)
  | F.pinf => FR.pinf
  | F.ninf => FR.ninf
  | F.nan => FR.nan

namespace BT

/-- The non-`NaN` cells of a series (pandas `skipna` handling). -/
def validVals (l : List F) : List F := l.filter fun x => !x.isNa

/-- pandas `Series.mean` (default `skipna=True`): sum of the non-`NaN` cells
divided by their count; `NaN` on an empty or all-`NaN` series (`0/0`). -/
def seriesMean (l : List F) : F :=
  F.sumF (validVals l) / F.fin ((validVals l).length : ℚ)

/-- The sample variance underlying pandas `Series.std` (default `ddof=1`,
`skipna=True`): sum of squared deviations of the non-`NaN` cells from their
mean, divided by `count - 1`; `NaN` when the count is 0 or 1. -/
def seriesVar (l : List F) : F :=
  let v := validVals l
  let μ := seriesMean l
  F.sumF (v.map fun x => (x - μ) * (x - μ)) / F.fin ((v.length - 1 : ℕ) : ℚ)

/-- Model of `total_returns` in `compute_metrics`:
`equity_curve.iloc[-1] / equity_curve.iloc[0] - 1`.  The source raises
`IndexError` on an empty curve; the model returns `NaN` there (that value is
never relied upon). -/
def total_returns (equity_curve : List F) : F :=
  equity_curve.getLastD F.nan / equity_curve.headD F.nan - F.fin 1

/-- Model of `daily_mean_return = port_returns.mean()`. -/
def daily_mean_return (port_returns : List F) : F := seriesMean port_returns

/-- Model of `daily_vol = port_returns.std()` (sample standard deviation, `ddof=1`). -/
noncomputable def daily_vol (port_returns : List F) : FR :=
  FR.sqrtF (seriesVar port_returns)

/-- Model of `annual_return = daily_mean_return * 252`. -/
def annual_return (port_returns : List F) : F :=
  daily_mean_return port_returns * F.fin 252

/-- Model of `annual_vol = daily_vol * np.sqrt(252)`. -/
noncomputable def annual_vol (port_returns : List F) : FR :=
  FR.mul (daily_vol port_returns) (FR.fin (Real.sqrt 252))

/-- Model of `sharpe = (annual_return - risk_free_rate) / annual_vol if annual_vol != 0
else np.nan`, with Python float `!=` semantics on the condition. -/
noncomputable def sharpe (port_returns : List F) (risk_free_rate : ℚ) : FR :=
  if FR.neBool (annual_vol port_returns) (FR.fin 0) then
    FR.div (F.toFR (annual_return port_returns - F.fin risk_free_rate))
      (annual_vol port_returns)
  else FR.nan

/-- Model of `running_max = equity_curve.cummax()`. -/
def running_max (equity_curve : List F) : List F := F.cummax equity_curve

/-- Model of `drawdown = equity_curve / running_max - 1` (cell-wise). -/
def drawdown (equity_curve : List F) : List F :=
  (List.zipWith (· / ·) equity_curve (running_max equity_curve)).map
    fun d => d - F.fin 1

/-- Model of `max_drawdown = drawdown.min()`. -/
def max_drawdown (equity_curve : List F) : F :=
  F.seriesMin (drawdown equity_curve)

end BT

/-- The dictionary returned by `compute_metrics`. -/
structure Metrics where
  total_return : F
  annual_return : F
  annual_vol : FR
  sharpe : FR
  max_drawdown : F

/-- Model of `compute_metrics` from `src/backtest.py`. -/
noncomputable def compute_metrics (equity_curve port_returns : List F)
    (risk_free_rate : ℚ) : Metrics :=
  { total_return := BT.total_returns equity_curve
    annual_return := BT.annual_return port_returns
    annual_vol := BT.annual_vol port_returns
    sharpe := BT.sharpe port_returns risk_free_rate
    max_drawdown := BT.max_drawdown equity_curve }

namespace F

theorem nan_add (x : F) : add nan x = nan := by cases x <;> rfl

theorem add_nan (x : F) : add x nan = nan := by cases x <;> rfl

theorem nan_mul (x : F) : mul nan x = nan := by cases x <;> rfl

theorem mul_nan (x : F) : mul x nan = nan := by cases x <;> rfl

theorem nan_div (x : F) : div nan x = nan := by cases x <;> rfl

theorem div_nan (x : F) : div x nan = nan := by cases x <;> rfl

theorem sub_nan (x : F) : sub x nan = nan := add_nan x

theorem nan_sub (x : F) : sub nan x = nan := by cases x <;> rfl

theorem add_not_finite_right (x y : F) (h : y.isFinite = false) :
    (add x y).isFinite = false := by
  cases x <;> cases y <;> simp_all [add, isFinite]

theorem add_not_finite_left (x y : F) (h : x.isFinite = false) :
    (add x y).isFinite = false := by
  cases x <;> cases y <;> simp_all [add, isFinite]

theorem mul_not_finite_right (x y : F) (h : y.isFinite = false) :
    (mul x y).isFinite = false := by
  cases x <;> cases y <;> simp_all [mul, isFinite] <;> split_ifs <;> simp [isFinite]

theorem mul_not_finite_left (x y : F) (h : x.isFinite = false) :
    (mul x y).isFinite = false := by
  cases x <;> cases y <;> simp_all [mul, isFinite] <;> split_ifs <;> simp [isFinite]

theorem foldl_add_map_fin (l : List ℚ) (a : ℚ) :
    List.foldl add (fin a) (l.map fin) = fin (a + l.sum) := by
  induction l generalizing a with
  | nil => simp
  | cons x xs ih => simp [ih, add_assoc]

theorem sumF_map_fin (l : List ℚ) : sumF (l.map fin) = fin l.sum := by
  rw [sumF]
  have hfilter : (l.map fin).filter (fun x => !x.isNa) = l.map fin := by
    rw [List.filter_eq_self]
    intro x hx
    obtain ⟨q, _, rfl⟩ := List.mem_map.mp hx
    simp
  rw [hfilter]
  simpa using foldl_add_map_fin l 0

theorem foldl_add_not_finite (l : List F) (a : F) (h : a.isFinite = false) :
    (List.foldl add a l).isFinite = false := by
  induction l generalizing a with
  | nil => exact h
  | cons x xs ih => exact ih _ (add_not_finite_left _ _ h)

theorem maxF_fin_fin (a b : ℚ) : maxF (fin a) (fin b) = fin (max a b) := by
  by_cases h : a ≤ b <;> simp [maxF, le, h, max_def]

theorem minF_fin_fin (a b : ℚ) : minF (fin a) (fin b) = fin (min a b) := by
  by_cases h : a ≤ b <;> simp [minF, le, h, min_def]

theorem minGo_map_fin (l : List ℚ) (a : ℚ) :
    minGo (fin a) (l.map fin) = fin (l.foldl min a) := by
  induction l generalizing a with
  | nil => rfl
  | cons x xs ih => simp [minGo, minF_fin_fin, ih]

theorem seriesMin_map_fin (x : ℚ) (l : List ℚ) :
    seriesMin ((x :: l).map fin) = fin (l.foldl min x) := by
  simp [seriesMin, minGo, minGo_map_fin]

end F

/-- Rational running product with seed `a` (the exact-arithmetic shadow of
`Series.cumprod` on finite cells). -/
def cumprodQ (a : ℚ) : List ℚ → List ℚ
  | [] => []
  | x :: xs => (a * x) :: cumprodQ (a * x) xs

/-- Rational running maximum with seed `a` (the exact-arithmetic shadow of
`Series.cummax` on finite cells). -/
def cummaxQ (a : ℚ) : List ℚ → List ℚ
  | [] => []
  | x :: xs => max a x :: cummaxQ (max a x) xs

namespace F

theorem cumprodGo_map_fin (l : List ℚ) (a : ℚ) :
    cumprodGo (fin a) (l.map fin) = (cumprodQ a l).map fin := by
  induction l generalizing a with
  | nil => rfl
  | cons x xs ih => simp [cumprodGo, cumprodQ, ih]

theorem cumprod_map_fin (l : List ℚ) :
    cumprod (l.map fin) = (cumprodQ 1 l).map fin := by
  simp [cumprod, cumprodGo_map_fin]

theorem cummaxGo_map_fin (l : List ℚ) (a : ℚ) :
    cummaxGo (fin a) (l.map fin) = (cummaxQ a l).map fin := by
  induction l generalizing a with
  | nil => rfl
  | cons x xs ih => simp [cummaxGo, cummaxQ, maxF_fin_fin, ih]

theorem cummax_map_fin (x : ℚ) (l : List ℚ) :
    cummax ((x :: l).map fin) = ((x :: cummaxQ x l).map fin) := by
  simp [cummax, cummaxGo, cummaxGo_map_fin]

theorem cumprodGo_cons (a x : F) (xs : List F) :
    cumprodGo a (x :: xs) =
      if x = nan then nan :: cumprodGo a xs
      else mul a x :: cumprodGo (mul a x) xs := rfl

theorem cumprodGo_not_finite (l : List F) (a : F)
    (h : ∀ x ∈ l, x.isFinite = false) :
    ∀ y ∈ cumprodGo a l, y.isFinite = false := by
  induction l generalizing a with
  | nil => simp [cumprodGo]
  | cons x xs ih =>
      intro y hy
      rw [cumprodGo_cons] at hy
      by_cases hx : x = nan
      · rw [if_pos hx, List.mem_cons] at hy
        rcases hy with hy | hy
        · simp [hy, isFinite]
        · exact ih a (fun z hz => h z (List.mem_cons_of_mem _ hz)) y hy
      · rw [if_neg hx, List.mem_cons] at hy
        rcases hy with hy | hy
        · rw [hy]
          exact mul_not_finite_right _ _ (h x (List.mem_cons_self _ _))
        · exact ih _ (fun z hz => h z (List.mem_cons_of_mem _ hz)) y hy

end F

/-- The worked scenario of spec §8: prices `{A: [100,110,99], B: [50,55,55]}`. -/
def scenarioPrices : List (List F) :=
  [[F.fin 100, F.fin 50], [F.fin 110, F.fin 55], [F.fin 99, F.fin 55]]

/-- C1 (counterexample): on the worked scenario the code's `total_return` is
`10450/11000 - 1 = -0.05`, not the claimed `0.045` (the code divides by the
first equity value `11000`, which already includes the first return, not by
the initial amount `10000`). -/
theorem scenario_total_return_differs :
    (compute_metrics (backtest_portfolio scenarioPrices [1/2, 1/2] 10000).1
        (backtest_portfolio scenarioPrices [1/2, 1/2] 10000).2 0).total_return ≠
      F.fin (9/200 : ℚ) := by
  norm_num [backtest_portfolio, compute_returns, dropna, pct_change, pctRow,
    pctCell, F.fin_div_fin, F.sumF, F.cumprod, F.cumprodGo, scenarioPrices,
    List.filter, compute_metrics, BT.total_returns]

/-- C1 (amended): on prices `{A: [100,110,99], B: [50,55,55]}`, weights
`[0.5, 0.5]` and initial amount `10000`, `backtest_portfolio` returns the
portfolio return series `[0.10, -0.05]` and equity curve `[11000, 10450]`,
and `compute_metrics` on that output returns
`total_return = 10450/11000 - 1 = -0.05` (not `0.045`: the code's baseline is
the first equity value, which already contains the first return) and
`max_drawdown = 10450/11000 - 1 = -0.05`. -/
theorem scenario_backtest_and_metrics :
    backtest_portfolio scenarioPrices [1/2, 1/2] 10000 =
      ([F.fin 11000, F.fin 10450], [F.fin (1/10), F.fin (-1/20)]) ∧
    (compute_metrics [F.fin 11000, F.fin 10450] [F.fin (1/10), F.fin (-1/20)]
        0).total_return = F.fin (-1/20) ∧
    (compute_metrics [F.fin 11000, F.fin 10450] [F.fin (1/10), F.fin (-1/20)]
        0).max_drawdown = F.fin (10450/11000 - 1 : ℚ) ∧
    (10450/11000 - 1 : ℚ) = -1/20 := by
  refine ⟨?_, ?_, ?_, by norm_num⟩
  · norm_num [backtest_portfolio, compute_returns, dropna, pct_change, pctRow,
      pctCell, F.fin_div_fin, F.sumF, F.cumprod, F.cumprodGo, scenarioPrices,
      List.filter]
  · norm_num [compute_metrics, BT.total_returns, F.fin_div_fin]
  · norm_num [compute_metrics, BT.max_drawdown, BT.drawdown, BT.running_max,
      F.cummax, F.cummaxGo, F.maxF, F.le, F.seriesMin, F.minGo, F.minF,
      F.fin_div_fin]

namespace F

@[simp] theorem sub_nan_right (x : F) : x - nan = nan := add_nan x

@[simp] theorem sub_nan_left (x : F) : nan - x = nan := nan_sub x

@[simp] theorem div_nan_right (x : F) : x / nan = nan := div_nan x

@[simp] theorem div_nan_left (x : F) : nan / x = nan := nan_div x

end F

/-- Spec-side description of the returns computation (§3 ReturnSeries / the
algorithm step 1): the first row produces no return; row `t ≥ 1` survives
exactly when no ticker's value is missing in it or in the immediately
preceding stored row, and then its returns are
`(price[t] - price[t-1]) / price[t-1]` computed cell-wise from those two
adjacent stored prices — no forward or backward filling. -/
def specReturns (rows : List (List F)) : List (List F) :=
  (List.zipWith (fun prev cur => (prev, cur)) rows rows.tail).filterMap fun pc =>
    if (pc.1.all fun x => !x.isNa) && (pc.2.all fun x => !x.isNa) then
      some (List.zipWith (fun p c => (c - p) / p) pc.1 pc.2)
    else none

/-- A cell is well formed when it is either missing or a nonzero finite
price. -/
def goodCell (x : F) : Prop := x = F.nan ∨ ∃ q : ℚ, q ≠ 0 ∧ x = F.fin q

theorem pctCell_isNa (x y : F) (hx : goodCell x) (hy : goodCell y) :
    (pctCell x y).isNa = (x.isNa || y.isNa) := by
  rcases hx with hx | ⟨p, hp, hx⟩ <;> subst hx
  · simp [pctCell]
  · rcases hy with hy | ⟨c, hc, hy⟩ <;> subst hy
    · simp [pctCell]
    · simp [pctCell, F.fin_div_fin _ _ hp]

theorem pctRow_all_present (a b : List F) (hlen : a.length = b.length)
    (ha : ∀ x ∈ a, goodCell x) (hb : ∀ x ∈ b, goodCell x) :
    ((pctRow a b).all fun x => !x.isNa) =
      ((a.all fun x => !x.isNa) && (b.all fun x => !x.isNa)) := by
  induction a generalizing b with
  | nil =>
      cases b with
      | nil => rfl
      | cons y ys => simp at hlen
  | cons x xs ih =>
      cases b with
      | nil => simp at hlen
      | cons y ys =>
          simp only [pctRow, List.zipWith_cons_cons, List.all_cons] at *
          rw [pctCell_isNa x y (ha x (by simp)) (hb y (by simp))]
          have := ih ys (by simpa using hlen)
            (fun z hz => ha z (List.mem_cons_of_mem _ hz))
            (fun z hz => hb z (List.mem_cons_of_mem _ hz))
          simp only [pctRow] at this
          rw [this]
          cases x.isNa <;> cases y.isNa <;> simp

theorem dropna_zip_pctRow (rows : List (List F))
    (hcells : ∀ r ∈ rows, ∀ x ∈ r, goodCell x) (k : ℕ)
    (hrect : ∀ r ∈ rows, r.length = k) :
    dropna (List.zipWith pctRow rows rows.tail) = specReturns rows := by
  induction rows with
  | nil => rfl
  | cons r1 rest ih =>
      cases rest with
      | nil => rfl
      | cons r2 rest2 =>
          have hab : r1.length = r2.length := by
            rw [hrect r1 (by simp), hrect r2 (by simp)]
          have hpr := pctRow_all_present r1 r2 hab
            (hcells r1 (by simp)) (hcells r2 (by simp))
          have ihr := ih (fun r hr => hcells r (List.mem_cons_of_mem _ hr))
            (fun r hr => hrect r (List.mem_cons_of_mem _ hr))
          simp only [List.tail_cons, List.zipWith_cons_cons] at ihr ⊢
          rw [specReturns]
          simp only [List.tail_cons, List.zipWith_cons_cons, List.filterMap_cons]
          rw [dropna, List.filter_cons, hpr]
          by_cases hcase :
              ((r1.all fun x => !x.isNa) && (r2.all fun x => !x.isNa)) = true
          · rw [hcase]
            simp only [if_true]
            refine List.cons_eq_cons.mpr ⟨by rw [pctRow]; exact rfl, ?_⟩
            show dropna (List.zipWith pctRow (r2 :: rest2) rest2) = _
            rw [ihr, specReturns]
            simp only [List.tail_cons]
          · rw [Bool.not_eq_true] at hcase
            rw [hcase]
            simp only [Bool.false_eq_true, if_false]
            show dropna (List.zipWith pctRow (r2 :: rest2) rest2) = _
            rw [ihr, specReturns]
            simp only [List.tail_cons]

theorem compute_returns_eq_specReturns (rows : List (List F)) (k : ℕ)
    (hk : 0 < k) (hrect : ∀ r ∈ rows, r.length = k)
    (hcells : ∀ r ∈ rows, ∀ x ∈ r, goodCell x) :
    compute_returns rows = specReturns rows := by
  cases rows with
  | nil => rfl
  | cons r0 rest =>
      have h0 : ((r0.map fun _ => F.nan).all fun x => !x.isNa) = false := by
        cases r0 with
        | nil =>
            have := hrect [] (by simp)
            simp at this
            omega
        | cons y ys => simp
      rw [compute_returns, pct_change]
      rw [dropna, List.filter_cons, h0]
      simp only [Bool.false_eq_true, if_false]
      rw [← dropna]
      have := dropna_zip_pctRow (r0 :: rest) hcells k hrect
      simpa using this

/-- C2: for every rectangular price table (at least one ticker column, cells
either missing or nonzero finite prices), `compute_returns` drops the first
row, drops every row in which some ticker's value is missing — a missing
value also invalidates the immediately following row's return, since no
forward or backward filling is performed — and each surviving return row is
computed cell-wise as `(price[t] - price[t-1]) / price[t-1]` from the two
adjacent stored prices. -/
theorem compute_returns_drops_and_adjacent (rows : List (List F)) (k : ℕ)
    (hk : 0 < k) (hrect : ∀ r ∈ rows, r.length = k)
    (hcells : ∀ r ∈ rows, ∀ x ∈ r, goodCell x) :
    compute_returns rows = specReturns rows :=
  compute_returns_eq_specReturns rows k hk hrect hcells

/-- C2 witness: a concrete table with a missing interior cell — the missing
row and its successor both drop; the survivor uses adjacent stored prices. -/
theorem compute_returns_drops_and_adjacent_witness :
    (0 : ℕ) < 1 ∧
    compute_returns [[F.fin 100], [F.nan], [F.fin 110], [F.fin 121]] =
      specReturns [[F.fin 100], [F.nan], [F.fin 110], [F.fin 121]] := by
  refine ⟨by norm_num, compute_returns_drops_and_adjacent _ 1 (by norm_num)
    (by intro r hr; fin_cases hr <;> simp) ?_⟩
  intro r hr
  fin_cases hr <;> intro x hx <;> simp only [List.mem_singleton] at hx <;>
    subst hx
  · exact Or.inr ⟨100, by norm_num, rfl⟩
  · exact Or.inl rfl
  · exact Or.inr ⟨110, by norm_num, rfl⟩
  · exact Or.inr ⟨121, by norm_num, rfl⟩

/-- C3: scaling every weight by one nonzero constant `c` leaves both outputs
of `backtest_portfolio` unchanged, because the engine divides each weight by
the weight sum. -/
theorem backtest_weight_scaling (prices : List (List F)) (weights : List ℚ)
    (c A : ℚ) (hc : c ≠ 0) (hsum : weights.sum ≠ 0) :
    backtest_portfolio prices (weights.map fun w => c * w) A =
      backtest_portfolio prices weights A := by
  have hs : (weights.map fun w => c * w).sum = c * weights.sum := by
    clear hsum
    induction weights with
    | nil => simp
    | cons w ws ih => simp [ih, mul_add]
  have hw : (weights.map fun w => c * w).map
        (fun wi => F.fin wi / F.fin (weights.map fun w => c * w).sum) =
      weights.map fun wi => F.fin wi / F.fin weights.sum := by
    rw [hs, List.map_map]
    refine List.map_congr_left fun wi _ => ?_
    show F.fin (c * wi) / F.fin (c * weights.sum) = _
    rw [F.fin_div_fin _ _ (mul_ne_zero hc hsum), F.fin_div_fin _ _ hsum,
      mul_div_mul_left _ _ hc]
  simp only [backtest_portfolio]
  rw [hw]

/-- C3 witness: weights `[1/2, 1/2]` (i.e. `[1,1]` scaled by `1/2`) give the
same outputs as `[1, 1]` on a concrete two-ticker table. -/
theorem backtest_weight_scaling_witness :
    (1/2 : ℚ) ≠ 0 ∧ ([1, 1] : List ℚ).sum ≠ 0 ∧
    backtest_portfolio [[F.fin 100, F.fin 50], [F.fin 110, F.fin 55]]
        (([1, 1] : List ℚ).map fun w => (1/2 : ℚ) * w) 10000 =
      backtest_portfolio [[F.fin 100, F.fin 50], [F.fin 110, F.fin 55]]
        [1, 1] 10000 :=
  ⟨by norm_num, by norm_num,
    backtest_weight_scaling _ _ _ _ (by norm_num) (by norm_num)⟩

/-- Reconstruction of per-period returns from an equity curve (spec §8
round-trip): first entry against the initial amount, later entries against
the previous equity value. -/
def reconstructReturns (equity_curve : List F) (initial_amount : ℚ) : List F :=
  List.zipWith (fun e p => e / p - F.fin 1) equity_curve
    (F.fin initial_amount :: equity_curve)

/-- Concrete input on which the literal round-trip claim fails: ticker A
drops from 100 to -100 (a -200% return), so the portfolio return is exactly
-1 and the equity curve hits 0. -/
def roundtripCexPrices : List (List F) :=
  [[F.fin 100, F.fin 100], [F.fin (-100), F.fin 100], [F.fin (-100), F.fin 100]]

/-- C4 (counterexample): with weights `[1/2, 1/2]` and initial amount 10000
on `roundtripCexPrices`, the portfolio returns are `[-1, 0]` and the equity
curve is `[0, 0]`; reconstructing returns from the equity curve gives
`[-1, NaN]` (division `0/0`), which does not recover the return series. -/
theorem roundtrip_counterexample :
    reconstructReturns (backtest_portfolio roundtripCexPrices [1/2, 1/2] 10000).1
        10000 ≠
      (backtest_portfolio roundtripCexPrices [1/2, 1/2] 10000).2 := by
  have hz : (F.fin 0 / F.fin 0 : F) = F.nan := by
    show F.div (F.fin 0) (F.fin 0) = F.nan
    simp [F.div]
  have hnf : ¬ (F.nan = F.fin 0) := by simp
  norm_num [backtest_portfolio, compute_returns, dropna, pct_change, pctRow,
    pctCell, F.fin_div_fin, F.sumF, F.cumprod, F.cumprodGo,
    roundtripCexPrices, List.filter, reconstructReturns, hz, hnf]

theorem cumprodQ_mul_fin_roundtrip (qs : List ℚ) (a A : ℚ) (ha : a ≠ 0)
    (hA : A ≠ 0) (h : ∀ q ∈ qs, 1 + q ≠ 0) :
    List.zipWith (fun e p => e / p - F.fin 1)
        (((cumprodQ a (qs.map fun q => 1 + q)).map fun x => x * A).map F.fin)
        (F.fin (a * A) ::
          ((cumprodQ a (qs.map fun q => 1 + q)).map fun x => x * A).map F.fin) =
      qs.map F.fin := by
  induction qs generalizing a with
  | nil => rfl
  | cons q qs ih =>
      have h1 : 1 + q ≠ 0 := h q (by simp)
      have ha' : a * (1 + q) ≠ 0 := mul_ne_zero ha h1
      simp only [List.map_cons, cumprodQ, List.zipWith_cons_cons]
      rw [F.fin_div_fin _ _ (mul_ne_zero ha hA)]
      have hq : a * (1 + q) * A / (a * A) - 1 = q := by
        field_simp
        ring
      rw [show (F.fin (a * (1 + q) * A / (a * A)) - F.fin 1) =
          F.fin (a * (1 + q) * A / (a * A) - 1) from F.fin_sub_fin _ _, hq]
      exact congrArg (F.fin q :: ·) (ih (a * (1 + q)) ha'
        (fun r hr => h r (List.mem_cons_of_mem _ hr)))

theorem cumprodQ_mul_fin_recurrence (qs : List ℚ) (a A : ℚ) :
    ((cumprodQ a (qs.map fun q => 1 + q)).map fun x => x * A).map F.fin =
      List.zipWith (fun prev r => prev * (F.fin 1 + r))
        (F.fin (a * A) ::
          ((cumprodQ a (qs.map fun q => 1 + q)).map fun x => x * A).map F.fin)
        (qs.map F.fin) := by
  induction qs generalizing a with
  | nil => rfl
  | cons q qs ih =>
      simp only [List.map_cons, cumprodQ, List.zipWith_cons_cons]
      have hh : F.fin (a * A) * (F.fin 1 + F.fin q) = F.fin (a * (1 + q) * A) := by
        rw [F.fin_add_fin, F.fin_mul_fin]
        ring_nf
      exact List.cons_eq_cons.mpr ⟨hh.symm, ih (a * (1 + q))⟩

theorem mem_map_fin_decomp (l : List F) (P : ℚ → Prop)
    (h : ∀ r ∈ l, ∃ q : ℚ, P q ∧ r = F.fin q) :
    ∃ qs : List ℚ, (∀ q ∈ qs, P q) ∧ l = qs.map F.fin := by
  induction l with
  | nil => exact ⟨[], by simp, rfl⟩
  | cons x xs ih =>
      obtain ⟨q, hq, rfl⟩ := h x (by simp)
      obtain ⟨qs, hqs, rfl⟩ := ih fun r hr => h r (List.mem_cons_of_mem _ hr)
      exact ⟨q :: qs, by
        intro p hp
        rcases List.mem_cons.mp hp with rfl | hp
        · exact hq
        · exact hqs p hp, rfl⟩

/-- C4 (amended): for backtest output whose portfolio returns are all finite
and different from -1, with initial amount > 0, reconstructing per-period
returns from the equity curve (first entry against the initial amount, later
entries against the previous equity value) recovers the portfolio return
series exactly, and the equity curve satisfies
`equity[t] = equity[t-1] * (1 + r[t])` seeded by the initial amount.  As
stated — for every backtest output — the recovery fails: a -100% portfolio
return drives the equity curve to 0 and the reconstruction divides `0/0`
(see the counterexample). -/
theorem equity_returns_roundtrip (prices : List (List F)) (weights : List ℚ)
    (A : ℚ) (hA : 0 < A)
    (hfin : ∀ r ∈ (backtest_portfolio prices weights A).2,
      ∃ q : ℚ, q ≠ -1 ∧ r = F.fin q) :
    reconstructReturns (backtest_portfolio prices weights A).1 A =
        (backtest_portfolio prices weights A).2 ∧
    (backtest_portfolio prices weights A).1 =
      List.zipWith (fun prev r => prev * (F.fin 1 + r))
        (F.fin A :: (backtest_portfolio prices weights A).1)
        (backtest_portfolio prices weights A).2 := by
  have hb : (backtest_portfolio prices weights A).1 =
      (F.cumprod ((backtest_portfolio prices weights A).2.map
        fun r => F.fin 1 + r)).map (· * F.fin A) := rfl
  obtain ⟨qs, hqs, hport⟩ := mem_map_fin_decomp _ _ hfin
  rw [hb, hport]
  have hmm : ((qs.map F.fin).map fun r => F.fin 1 + r) =
      (qs.map fun q => 1 + q).map F.fin := by
    simp only [List.map_map]
    refine List.map_congr_left fun q _ => ?_
    simp
  rw [hmm, F.cumprod_map_fin]
  have hmap : ((cumprodQ 1 (qs.map fun q => 1 + q)).map F.fin).map
        (· * F.fin A) =
      ((cumprodQ 1 (qs.map fun q => 1 + q)).map fun x => x * A).map F.fin := by
    simp only [List.map_map]
    refine List.map_congr_left fun x _ => ?_
    simp
  rw [hmap]
  have hne : ∀ q ∈ qs, 1 + q ≠ 0 := by
    intro q hq hcon
    exact hqs q hq (by linarith)
  constructor
  · have := cumprodQ_mul_fin_roundtrip qs 1 A one_ne_zero (ne_of_gt hA) hne
    simpa [reconstructReturns, one_mul] using this
  · have := cumprodQ_mul_fin_recurrence qs 1 A
    simpa [one_mul] using this

/-- C4 witness: on the worked scenario the returns `[0.10, -0.05]` are finite
and different from -1, and the round-trip recovers them. -/
theorem equity_returns_roundtrip_witness :
    (0 : ℚ) < 10000 ∧
    reconstructReturns (backtest_portfolio scenarioPrices [1/2, 1/2] 10000).1
        10000 = (backtest_portfolio scenarioPrices [1/2, 1/2] 10000).2 := by
  have hport : (backtest_portfolio scenarioPrices [1/2, 1/2] 10000).2 =
      [F.fin (1/10), F.fin (-1/20)] := by
    norm_num [backtest_portfolio, compute_returns, dropna, pct_change, pctRow,
      pctCell, F.fin_div_fin, F.sumF, F.cumprod, F.cumprodGo, scenarioPrices,
      List.filter]
  refine ⟨by norm_num, (equity_returns_roundtrip scenarioPrices [1/2, 1/2]
    10000 (by norm_num) ?_).1⟩
  rw [hport]
  intro r hr
  rcases List.mem_cons.mp hr with rfl | hr
  · exact ⟨1/10, by norm_num, rfl⟩
  · rcases List.mem_cons.mp hr with rfl | hr
    · exact ⟨-1/20, by norm_num, rfl⟩
    · simp at hr

/-- Spec-side running maximum (§4.2): `running_max[t] = max(equity[0..t])`,
built structurally: the head is its own prefix maximum, and every later
prefix maximum also absorbs the head. -/
def prefixMaxQ : List ℚ → List ℚ
  | [] => []
  | x :: xs => x :: (prefixMaxQ xs).map (max x)

/-- Spec-side drawdown series: `equity[t] / running_max[t] - 1`. -/
def specDrawdowns (l : List ℚ) : List ℚ :=
  List.zipWith (fun e m => e / m - 1) l (prefixMaxQ l)

/-- Spec-side maximum drawdown: the minimum of the drawdown series (0 for an
empty curve, a boundary case the code raises on and no claim uses). -/
def specMaxDrawdown (l : List ℚ) : ℚ :=
  match specDrawdowns l with
  | [] => 0
  | d :: ds => ds.foldl min d

theorem prefixMaxQ_map_max (xs : List ℚ) (a : ℚ) :
    (prefixMaxQ xs).map (max a) = cummaxQ a xs := by
  induction xs generalizing a with
  | nil => rfl
  | cons y ys ih =>
      simp only [prefixMaxQ, cummaxQ, List.map_cons, List.map_map]
      refine List.cons_eq_cons.mpr ⟨rfl, ?_⟩
      rw [← ih (max a y)]
      refine List.map_congr_left fun z _ => ?_
      simp only [Function.comp_apply]
      exact (max_assoc a y z).symm

theorem zipWith_div_map_fin (l m : List ℚ) (hm : ∀ y ∈ m, y ≠ 0) :
    List.zipWith (· / ·) (l.map F.fin) (m.map F.fin) =
      (List.zipWith (· / ·) l m).map F.fin := by
  induction l generalizing m with
  | nil => simp
  | cons x xs ih =>
      cases m with
      | nil => simp
      | cons y ys =>
          simp only [List.map_cons, List.zipWith_cons_cons]
          rw [F.fin_div_fin _ _ (hm y (by simp)),
            ih ys (fun z hz => hm z (List.mem_cons_of_mem _ hz))]

theorem cummaxQ_pos (xs : List ℚ) (a : ℚ) (ha : 0 < a)
    (hxs : ∀ y ∈ xs, 0 < y) : ∀ z ∈ cummaxQ a xs, 0 < z := by
  induction xs generalizing a with
  | nil => simp [cummaxQ]
  | cons y ys ih =>
      intro z hz
      rw [cummaxQ, List.mem_cons] at hz
      rcases hz with rfl | hz
      · exact lt_max_of_lt_left ha
      · exact ih (max a y) (lt_max_of_lt_left ha)
          (fun w hw => hxs w (List.mem_cons_of_mem _ hw)) z hz

theorem cummax_drawdowns_nonpos (xs : List ℚ) (a : ℚ) (ha : 0 < a)
    (hxs : ∀ y ∈ xs, 0 < y) :
    ∀ d ∈ List.zipWith (fun e m => e / m - 1) xs (cummaxQ a xs), d ≤ 0 := by
  induction xs generalizing a with
  | nil => simp [cummaxQ]
  | cons y ys ih =>
      intro d hd
      rw [cummaxQ, List.zipWith_cons_cons, List.mem_cons] at hd
      rcases hd with rfl | hd
      · have hy : 0 < y := hxs y (by simp)
        have hmax : (0 : ℚ) < max a y := lt_max_of_lt_left ha
        have : y / max a y ≤ 1 := (div_le_one hmax).mpr (le_max_right a y)
        linarith
      · exact ih (max a y) (lt_max_of_lt_left ha)
          (fun w hw => hxs w (List.mem_cons_of_mem _ hw)) d hd

theorem cummax_drawdowns_monotone_zero (xs : List ℚ) (a : ℚ)
    (hxs : ∀ y ∈ xs, 0 < y) (hbound : ∀ y ∈ xs, a ≤ y)
    (hmono : xs.Pairwise (· ≤ ·)) :
    ∀ d ∈ List.zipWith (fun e m => e / m - 1) xs (cummaxQ a xs), d = 0 := by
  induction xs generalizing a with
  | nil => simp [cummaxQ]
  | cons y ys ih =>
      intro d hd
      have hy : 0 < y := hxs y (by simp)
      have hay : max a y = y := max_eq_right (hbound y (by simp))
      rw [cummaxQ, List.zipWith_cons_cons, List.mem_cons, hay] at hd
      rcases hd with rfl | hd
      · rw [div_self (ne_of_gt hy)]
        ring
      · rw [List.pairwise_cons] at hmono
        exact ih y (fun w hw => hxs w (List.mem_cons_of_mem _ hw))
          (fun w hw => hmono.1 w hw) hmono.2 d hd

theorem foldl_min_nonpos (ds : List ℚ) (d : ℚ) (hd : d ≤ 0)
    (hds : ∀ x ∈ ds, x ≤ 0) : ds.foldl min d ≤ 0 := by
  induction ds generalizing d with
  | nil => exact hd
  | cons x xs ih =>
      exact ih (min d x) (le_trans (min_le_left d x) hd)
        (fun w hw => hds w (List.mem_cons_of_mem _ hw))

theorem foldl_min_zero (ds : List ℚ) (d : ℚ) (hd : d = 0)
    (hds : ∀ x ∈ ds, x = 0) : ds.foldl min d = 0 := by
  induction ds generalizing d with
  | nil => exact hd
  | cons x xs ih =>
      have hx : x = 0 := hds x (by simp)
      exact ih (min d x) (by rw [hd, hx, min_self])
        (fun w hw => hds w (List.mem_cons_of_mem _ hw))

/-- C5: on a non-empty positive equity curve, `compute_metrics` returns
`max_drawdown` equal to the minimum over `t` of
`equity[t] / max(equity[0..t]) - 1`; that value is always ≤ 0 and is exactly
0 when the curve is non-decreasing. -/
theorem max_drawdown_formula (l : List ℚ) (hne : l ≠ [])
    (hpos : ∀ x ∈ l, 0 < x) (port : List F) (rfr : ℚ) :
    (compute_metrics (l.map F.fin) port rfr).max_drawdown =
        F.fin (specMaxDrawdown l) ∧
    specMaxDrawdown l ≤ 0 ∧
    (l.Chain' (· ≤ ·) → specMaxDrawdown l = 0) := by
  cases l with
  | nil => exact absurd rfl hne
  | cons x xs =>
      have hx : 0 < x := hpos x (by simp)
      have hxs : ∀ y ∈ xs, 0 < y := fun y hy => hpos y (List.mem_cons_of_mem _ hy)
      have hcpos : ∀ z ∈ cummaxQ x xs, 0 < z := cummaxQ_pos xs x hx hxs
      have hsd : specDrawdowns (x :: xs) =
          (x / x - 1) :: List.zipWith (fun e m => e / m - 1) xs (cummaxQ x xs) := by
        rw [specDrawdowns, prefixMaxQ, List.zipWith_cons_cons, prefixMaxQ_map_max]
      have hhead : x / x - 1 = 0 := by
        rw [div_self (ne_of_gt hx)]; ring
      constructor
      · show BT.max_drawdown ((x :: xs).map F.fin) = _
        rw [BT.max_drawdown, BT.drawdown, BT.running_max]
        rw [show ((x :: xs).map F.fin) = (x :: xs).map F.fin from rfl]
        rw [F.cummax_map_fin]
        rw [show (x :: cummaxQ x xs).map F.fin =
            (x :: cummaxQ x xs).map F.fin from rfl]
        rw [zipWith_div_map_fin _ _ (by
          intro y hy
          rcases List.mem_cons.mp hy with rfl | hy
          · exact ne_of_gt hx
          · exact ne_of_gt (hcpos y hy))]
        have hmapsub : ((List.zipWith (· / ·) (x :: xs) (x :: cummaxQ x xs)).map
              F.fin).map (fun d => d - F.fin 1) =
            ((List.zipWith (· / ·) (x :: xs) (x :: cummaxQ x xs)).map
              (fun d => d - 1)).map F.fin := by
          simp only [List.map_map]
          refine List.map_congr_left fun d _ => ?_
          simp
        rw [hmapsub]
        have hz : (List.zipWith (· / ·) (x :: xs) (x :: cummaxQ x xs)).map
              (fun d => d - 1) = specDrawdowns (x :: xs) := by
          rw [hsd, List.zipWith_cons_cons, List.map_cons]
          refine List.cons_eq_cons.mpr ⟨rfl, ?_⟩
          rw [List.map_zipWith]
        rw [hz, hsd, List.map_cons, ← List.map_cons, F.seriesMin_map_fin]
        simp only [specMaxDrawdown, hsd]
      · constructor
        · simp only [specMaxDrawdown, hsd]
          exact foldl_min_nonpos _ _ (le_of_eq hhead)
            (cummax_drawdowns_nonpos xs x hx hxs)
        · intro hchain
          rw [List.chain'_iff_pairwise, List.pairwise_cons] at hchain
          simp only [specMaxDrawdown, hsd]
          exact foldl_min_zero _ _ hhead
            (cummax_drawdowns_monotone_zero xs x hxs
              (fun w hw => hchain.1 w hw) hchain.2)

/-- C5 witness: the non-decreasing equity curve `[10000, 10100, 10300]` has
maximum drawdown exactly 0. -/
theorem max_drawdown_formula_witness :
    ([(10000 : ℚ), 10100, 10300] ≠ []) ∧
    (compute_metrics ([(10000 : ℚ), 10100, 10300].map F.fin) [] 0).max_drawdown =
        F.fin (specMaxDrawdown [(10000 : ℚ), 10100, 10300]) ∧
    specMaxDrawdown [(10000 : ℚ), 10100, 10300] = 0 := by
  have h := max_drawdown_formula [(10000 : ℚ), 10100, 10300] (by simp)
    (by intro x hx; fin_cases hx <;> norm_num) [] 0
  exact ⟨by simp, h.1, h.2.2 (by norm_num)⟩

namespace FR

theorem div_right_nan (x : FR) : div x nan = nan := by cases x <;> rfl

theorem neBool_fin_zero_iff (v : FR) : neBool v (fin 0) = true ↔ v ≠ fin 0 := by
  cases v <;> simp [neBool]

end FR

theorem validVals_map_fin (l : List ℚ) :
    BT.validVals (l.map F.fin) = l.map F.fin := by
  rw [BT.validVals, List.filter_eq_self]
  intro x hx
  obtain ⟨q, _, rfl⟩ := List.mem_map.mp hx
  simp

theorem seriesMean_map_fin (l : List ℚ) (h : l ≠ []) :
    BT.seriesMean (l.map F.fin) = F.fin (l.sum / l.length) := by
  rw [BT.seriesMean, validVals_map_fin, F.sumF_map_fin, List.length_map,
    F.fin_div_fin _ _ (Nat.cast_ne_zero.mpr fun hlen => h (List.length_eq_zero.mp hlen))]

theorem seriesVar_map_fin (l : List ℚ) (h : 2 ≤ l.length) :
    BT.seriesVar (l.map F.fin) =
      F.fin ((l.map fun x => (x - l.sum / l.length) * (x - l.sum / l.length)).sum /
        ((l.length - 1 : ℕ) : ℚ)) := by
  have hne : l ≠ [] := by
    intro hcon
    rw [hcon] at h
    simp at h
  simp only [BT.seriesVar, validVals_map_fin]
  rw [seriesMean_map_fin l hne]
  have hmap : (l.map F.fin).map
        (fun x => (x - F.fin (l.sum / l.length)) * (x - F.fin (l.sum / l.length))) =
      (l.map fun x => (x - l.sum / l.length) * (x - l.sum / l.length)).map F.fin := by
    simp only [List.map_map]
    refine List.map_congr_left fun x _ => ?_
    simp
  rw [hmap, F.sumF_map_fin, List.length_map]
  rw [F.fin_div_fin]
  have : l.length - 1 ≠ 0 := by omega
  exact_mod_cast Nat.cast_ne_zero.mpr this

theorem seriesVar_singleton_fin (q : ℚ) : BT.seriesVar [F.fin q] = F.nan := by
  have hz : (F.fin 0 / F.fin 0 : F) = F.nan := by
    show F.div (F.fin 0) (F.fin 0) = F.nan
    simp [F.div]
  norm_num [BT.seriesVar, BT.validVals, BT.seriesMean, F.sumF, F.fin_div_fin, hz]

theorem sqrtF_fin_zero : FR.sqrtF (F.fin 0) = FR.fin 0 := by
  rw [FR.sqrtF]
  rw [if_neg (by norm_num)]
  norm_num

theorem annual_vol_replicate_zero (n : ℕ) (h2 : 2 ≤ n) :
    BT.annual_vol (List.replicate n (F.fin 0)) = FR.fin 0 := by
  have hrep : List.replicate n (F.fin 0) = (List.replicate n (0 : ℚ)).map F.fin := by
    simp
  have hvar : BT.seriesVar (List.replicate n (F.fin 0)) = F.fin 0 := by
    rw [hrep, seriesVar_map_fin _ (by simpa using h2)]
    congr 1
    simp [List.map_replicate, List.sum_replicate]
  rw [BT.annual_vol, BT.daily_vol, hvar, sqrtF_fin_zero]
  show FR.fin ((0 : ℝ) * Real.sqrt 252) = FR.fin 0
  norm_num

theorem annual_vol_single_zero :
    BT.annual_vol [F.fin 0] = FR.nan := by
  rw [BT.annual_vol, BT.daily_vol, seriesVar_singleton_fin]
  rfl

/-- C6: the sharpe branch structure of `compute_metrics`: when
`annual_vol ≠ 0` (including the NaN case, since Python `NaN != 0` is true)
the returned sharpe is `(annual_return - risk_free_rate) / annual_vol`; when
`annual_vol = 0` it is the NaN sentinel; a constant all-zero return series
gives NaN; and a NaN `annual_vol` propagates to a NaN sharpe instead of an
error. -/
theorem sharpe_branching (equity port : List F) (rfr : ℚ) :
    (BT.annual_vol port ≠ FR.fin 0 →
      (compute_metrics equity port rfr).sharpe =
        FR.div (F.toFR (BT.annual_return port - F.fin rfr))
          (BT.annual_vol port)) ∧
    (BT.annual_vol port = FR.fin 0 →
      (compute_metrics equity port rfr).sharpe = FR.nan) ∧
    (port ≠ [] → (∀ x ∈ port, x = F.fin 0) →
      (compute_metrics equity port rfr).sharpe = FR.nan) ∧
    (BT.annual_vol port = FR.nan →
      (compute_metrics equity port rfr).sharpe = FR.nan) := by
  have hproj : (compute_metrics equity port rfr).sharpe = BT.sharpe port rfr := rfl
  have hpos : BT.annual_vol port ≠ FR.fin 0 →
      BT.sharpe port rfr = FR.div
        (F.toFR (BT.annual_return port - F.fin rfr)) (BT.annual_vol port) := by
    intro h
    rw [BT.sharpe, if_pos ((FR.neBool_fin_zero_iff _).mpr h)]
  have hzero : BT.annual_vol port = FR.fin 0 →
      BT.sharpe port rfr = FR.nan := by
    intro h
    rw [BT.sharpe, h]
    simp [FR.neBool]
  have hnan : BT.annual_vol port = FR.nan → BT.sharpe port rfr = FR.nan := by
    intro h
    rw [BT.sharpe, h, if_pos (by simp [FR.neBool])]
    exact FR.div_right_nan _
  refine ⟨fun h => hproj.trans (hpos h), fun h => hproj.trans (hzero h),
    ?_, fun h => hproj.trans (hnan h)⟩
  intro hne hall
  have hrep : port = List.replicate port.length (F.fin 0) :=
    List.eq_replicate_of_mem hall
  rw [hproj]
  rcases Nat.lt_or_ge port.length 2 with hlen | hlen
  · have h1 : port.length = 1 := by
      have : port.length ≠ 0 := fun hc => hne (List.length_eq_zero.mp hc)
      omega
    have hav : BT.annual_vol port = FR.nan := by
      rw [hrep, h1]
      exact annual_vol_single_zero
    rw [BT.sharpe, hav, if_pos (by simp [FR.neBool])]
    exact FR.div_right_nan _
  · have hav : BT.annual_vol port = FR.fin 0 := by
      rw [hrep]
      exact annual_vol_replicate_zero _ hlen
    rw [BT.sharpe, hav]
    simp [FR.neBool]

namespace FR

theorem fin_mul_fin_real (a b : ℝ) : mul (fin a) (fin b) = fin (a * b) := rfl

end FR

/-- C6 witness: a genuinely volatile series `[0, 0.01]` takes the division
branch; the constant series `[0]` yields the NaN sentinel. -/
theorem sharpe_branching_witness :
    BT.annual_vol [F.fin 0, F.fin (1/100)] ≠ FR.fin 0 ∧
    (compute_metrics [] [F.fin 0, F.fin (1/100)] 0).sharpe =
      FR.div (F.toFR (BT.annual_return [F.fin 0, F.fin (1/100)] - F.fin 0))
        (BT.annual_vol [F.fin 0, F.fin (1/100)]) ∧
    (compute_metrics [] [F.fin 0] 0).sharpe = FR.nan := by
  have hvar : BT.seriesVar [F.fin 0, F.fin (1/100)] = F.fin (1/20000) := by
    rw [show [F.fin 0, F.fin (1/100)] = ([0, 1/100] : List ℚ).map F.fin by
      norm_num]
    rw [seriesVar_map_fin _ (by norm_num)]
    congr 1
    norm_num
  have hvol : BT.annual_vol [F.fin 0, F.fin (1/100)] =
      FR.fin (Real.sqrt ((1/20000 : ℚ) : ℝ) * Real.sqrt 252) := by
    rw [BT.annual_vol, BT.daily_vol, hvar]
    simp only [FR.sqrtF]
    rw [if_neg (by norm_num)]
    exact FR.fin_mul_fin_real _ _
  have hne0 : BT.annual_vol [F.fin 0, F.fin (1/100)] ≠ FR.fin 0 := by
    rw [hvol]
    intro hcon
    have hpos : 0 < Real.sqrt ((1/20000 : ℚ) : ℝ) * Real.sqrt 252 :=
      mul_pos (Real.sqrt_pos.mpr (by norm_num)) (Real.sqrt_pos.mpr (by norm_num))
    have := FR.fin.inj hcon
    linarith
  exact ⟨hne0, (sharpe_branching [] [F.fin 0, F.fin (1/100)] 0).1 hne0,
    (sharpe_branching [] [F.fin 0] 0).2.2.1 (by simp)
      (fun x hx => List.mem_singleton.mp hx)⟩

/-- Spec-side arithmetic mean (§4.2 `daily_mean`). -/
def specMean (l : List ℚ) : ℚ := l.sum / l.length

/-- Spec-side sample variance with Bessel's correction (§4.2 `daily_vol`
squared): sum of squared deviations from the mean over `n - 1`. -/
def specSampleVar (l : List ℚ) : ℚ :=
  (l.map fun x => (x - specMean l) ^ 2).sum / ((l.length : ℚ) - 1)

/-- C7: on every non-empty finite return series, `compute_metrics` uses the
arithmetic mean as `daily_mean`, the Bessel-corrected (divisor `n-1`) sample
standard deviation as `daily_vol`, `annual_return = daily_mean * 252` and
`annual_vol = daily_vol * sqrt 252`, with the fixed constant 252 (the
definitions take no date information at all); a single-point series makes
the sample standard deviation NaN (`0/0`). -/
theorem metrics_annualization (l : List ℚ) (equity : List F) (rfr : ℚ)
    (hne : l ≠ []) :
    BT.daily_mean_return (l.map F.fin) = F.fin (specMean l) ∧
    (compute_metrics equity (l.map F.fin) rfr).annual_return =
      F.fin (specMean l * 252) ∧
    (2 ≤ l.length →
      BT.daily_vol (l.map F.fin) = FR.fin (Real.sqrt (specSampleVar l)) ∧
      (compute_metrics equity (l.map F.fin) rfr).annual_vol =
        FR.fin (Real.sqrt (specSampleVar l) * Real.sqrt 252)) ∧
    (l.length = 1 → BT.daily_vol (l.map F.fin) = FR.nan) := by
  have hmean : BT.daily_mean_return (l.map F.fin) = F.fin (specMean l) := by
    rw [BT.daily_mean_return, seriesMean_map_fin l hne, specMean]
  have hvar : 2 ≤ l.length → BT.seriesVar (l.map F.fin) = F.fin (specSampleVar l) := by
    intro h2
    rw [seriesVar_map_fin l h2, specSampleVar, specMean]
    have hnum : (l.map fun x =>
          (x - l.sum / l.length) * (x - l.sum / l.length)).sum =
        (l.map fun x => (x - l.sum / (l.length : ℚ)) ^ 2).sum :=
      congrArg List.sum (List.map_congr_left fun x _ => by ring)
    have hden : ((l.length - 1 : ℕ) : ℚ) = (l.length : ℚ) - 1 := by
      have h1 : 1 ≤ l.length := le_trans (by norm_num) h2
      push_cast [Nat.cast_sub h1]
      ring
    rw [hnum, hden]
  have hvarpos : 2 ≤ l.length → specSampleVar l ≥ 0 := by
    intro h2
    rw [specSampleVar]
    apply div_nonneg
    · refine List.sum_nonneg fun x hx => ?_
      obtain ⟨y, _, rfl⟩ := List.mem_map.mp hx
      positivity
    · have : (2 : ℚ) ≤ (l.length : ℚ) := by exact_mod_cast h2
      linarith
  have hvol : 2 ≤ l.length →
      BT.daily_vol (l.map F.fin) = FR.fin (Real.sqrt (specSampleVar l)) := by
    intro h2
    rw [BT.daily_vol, hvar h2]
    simp only [FR.sqrtF]
    rw [if_neg (by exact not_lt.mpr (hvarpos h2))]
  refine ⟨hmean, ?_, fun h2 => ⟨hvol h2, ?_⟩, ?_⟩
  · show BT.annual_return (l.map F.fin) = _
    rw [BT.annual_return, hmean, F.fin_mul_fin]
  · show BT.annual_vol (l.map F.fin) = _
    rw [BT.annual_vol, hvol h2]
    exact FR.fin_mul_fin_real _ _
  · intro h1
    obtain ⟨q, rfl⟩ := List.length_eq_one.mp h1
    rw [BT.daily_vol]
    rw [show ([q].map F.fin) = [F.fin q] from rfl, seriesVar_singleton_fin]
    rfl

/-- C7 witness: the two-point series `[0, 0.01]`. -/
theorem metrics_annualization_witness :
    ([(0 : ℚ), 1/100] ≠ []) ∧ 2 ≤ ([(0 : ℚ), 1/100] : List ℚ).length ∧
    BT.daily_mean_return (([(0 : ℚ), 1/100]).map F.fin) =
      F.fin (specMean [(0 : ℚ), 1/100]) ∧
    (compute_metrics [] (([(0 : ℚ), 1/100]).map F.fin) 0).annual_vol =
      FR.fin (Real.sqrt (specSampleVar [(0 : ℚ), 1/100]) * Real.sqrt 252) := by
  refine ⟨by simp, by simp, (metrics_annualization [(0 : ℚ), 1/100] [] 0
    (by simp)).1, ((metrics_annualization [(0 : ℚ), 1/100] [] 0
    (by simp)).2.2.1 (by simp)).2⟩

namespace F

@[simp] theorem isNa_eq_true_iff (x : F) : x.isNa = true ↔ x = nan := by
  cases x <;> simp [isNa]

end F

theorem pctCell_nan_left (y : F) : pctCell F.nan y = F.nan := by
  simp [pctCell]

theorem pctCell_nan_right (x : F) : pctCell x F.nan = F.nan := by
  simp [pctCell]

theorem pctRow_invalid_left (a b : List F) (hlen : a.length = b.length)
    (ha : ¬(a.all fun x => !x.isNa) = true) :
    ¬((pctRow a b).all fun x => !x.isNa) = true := by
  simp only [List.all_eq_true, not_forall] at ha ⊢
  obtain ⟨x, hx, hnx⟩ := ha
  obtain ⟨i, hi, hgi⟩ := List.mem_iff_getElem.mp hx
  have hxnan : x = F.nan := by
    revert hnx
    cases x <;> simp [F.isNa]
  have hip : i < (pctRow a b).length := by
    rw [pctRow, List.length_zipWith, ← hlen]
    omega
  have hib : i < b.length := by omega
  have hval : (pctRow a b)[i] = pctCell a[i] b[i] := by
    simp only [pctRow]
    exact List.getElem_zipWith
  refine ⟨(pctRow a b)[i], List.mem_iff_getElem.mpr ⟨i, hip, rfl⟩, ?_⟩
  rw [hval, hgi, hxnan, pctCell_nan_left]
  simp

theorem pctRow_invalid_right (a b : List F) (hlen : a.length = b.length)
    (hb : ¬(b.all fun x => !x.isNa) = true) :
    ¬((pctRow a b).all fun x => !x.isNa) = true := by
  simp only [List.all_eq_true, not_forall] at hb ⊢
  obtain ⟨x, hx, hnx⟩ := hb
  obtain ⟨i, hi, hgi⟩ := List.mem_iff_getElem.mp hx
  have hxnan : x = F.nan := by
    revert hnx
    cases x <;> simp [F.isNa]
  have hip : i < (pctRow a b).length := by
    rw [pctRow, List.length_zipWith, ← hlen]
    omega
  have hia : i < a.length := by omega
  have hval : (pctRow a b)[i] = pctCell a[i] b[i] := by
    simp only [pctRow]
    exact List.getElem_zipWith
  refine ⟨(pctRow a b)[i], List.mem_iff_getElem.mpr ⟨i, hip, rfl⟩, ?_⟩
  rw [hval, hgi, hxnan, pctCell_nan_right]
  simp

theorem length_filter_cons_le {α : Type} (p : α → Bool) (a : α) (l : List α) :
    (l.filter p).length ≤ ((a :: l).filter p).length := by
  rw [List.filter_cons]
  split
  · exact Nat.le_succ _
  · exact Nat.le_refl _

theorem zip_pctRow_all_invalid (l : List (List F)) (k : ℕ)
    (hrect : ∀ r ∈ l, r.length = k)
    (hcount : (l.filter fun r => r.all fun x => !x.isNa).length < 2) :
    ∀ row ∈ List.zipWith pctRow l l.tail,
      ¬(row.all fun x => !x.isNa) = true := by
  induction l with
  | nil => simp
  | cons a rest ih =>
      cases rest with
      | nil => simp
      | cons b rest2 =>
          intro row hrow
          simp only [List.tail_cons, List.zipWith_cons_cons, List.mem_cons] at hrow
          rcases hrow with rfl | hrow
          · have hab : a.length = b.length := by
              rw [hrect a (by simp), hrect b (by simp)]
            by_cases hva : (a.all fun x => !x.isNa) = true
            · by_cases hvb : (b.all fun x => !x.isNa) = true
              · exfalso
                simp only [List.filter_cons, hva, hvb, if_true,
                  List.length_cons] at hcount
                omega
              · exact pctRow_invalid_right a b hab hvb
            · exact pctRow_invalid_left a b hab hva
          · have hcount2 :
                ((b :: rest2).filter fun r => r.all fun x => !x.isNa).length < 2 :=
              lt_of_le_of_lt (length_filter_cons_le _ a _) hcount
            exact ih (fun r hr => hrect r (List.mem_cons_of_mem _ hr)) hcount2
              row (by simpa using hrow)

theorem compute_returns_empty (prices : List (List F)) (k : ℕ) (hk : 0 < k)
    (hrect : ∀ r ∈ prices, r.length = k)
    (hcount : (prices.filter fun r => r.all fun x => !x.isNa).length < 2) :
    compute_returns prices = [] := by
  cases prices with
  | nil => rfl
  | cons r0 rest =>
      rw [compute_returns, pct_change, dropna, List.filter_eq_nil_iff]
      intro row hrow
      rcases List.mem_cons.mp hrow with rfl | hrow
      · cases hr0 : r0 with
        | nil =>
            exfalso
            have := hrect r0 (by simp)
            rw [hr0] at this
            simp at this
            omega
        | cons y ys => simp [hr0]
      · exact zip_pctRow_all_invalid (r0 :: rest) k hrect hcount row
          (by simpa using hrow)

theorem zip_pctRow_row_length (l : List (List F)) (k : ℕ)
    (hrect : ∀ r ∈ l, r.length = k) :
    ∀ row ∈ List.zipWith pctRow l l.tail, row.length = k := by
  induction l with
  | nil => simp
  | cons a rest ih =>
      cases rest with
      | nil => simp
      | cons b rest2 =>
          intro row hrow
          simp only [List.tail_cons, List.zipWith_cons_cons, List.mem_cons] at hrow
          rcases hrow with rfl | hrow
          · rw [pctRow, List.length_zipWith, hrect a (by simp),
              hrect b (by simp)]
            exact min_self k
          · exact ih (fun r hr => hrect r (List.mem_cons_of_mem _ hr)) row
              (by simpa using hrow)

theorem compute_returns_row_length (prices : List (List F)) (k : ℕ)
    (hrect : ∀ r ∈ prices, r.length = k) :
    ∀ row ∈ compute_returns prices, row.length = k := by
  intro row hrow
  rw [compute_returns, dropna] at hrow
  have hrow2 := List.mem_of_mem_filter hrow
  cases prices with
  | nil => simp [pct_change] at hrow2
  | cons r0 rest =>
      rw [pct_change] at hrow2
      rcases List.mem_cons.mp hrow2 with rfl | hrow2
      · rw [List.length_map]
        exact hrect r0 (by simp)
      · exact zip_pctRow_row_length (r0 :: rest) k hrect row
          (by simpa using hrow2)

theorem normalized_weights_not_finite (weights : List ℚ)
    (hsum : weights.sum = 0) :
    ∀ w ∈ weights.map fun wi => F.fin wi / F.fin weights.sum,
      w.isFinite = false := by
  intro w hw
  obtain ⟨wi, _, rfl⟩ := List.mem_map.mp hw
  rw [hsum]
  show (F.div (F.fin wi) (F.fin 0)).isFinite = false
  simp only [F.div, if_pos rfl]
  split_ifs <;> rfl

theorem sumF_not_finite_or_zero (l : List F)
    (h : ∀ x ∈ l, x.isFinite = false) :
    (F.sumF l).isFinite = false ∨ F.sumF l = F.fin 0 := by
  rw [F.sumF]
  cases hf : l.filter fun x => !x.isNa with
  | nil => exact Or.inr rfl
  | cons x xs =>
      left
      have hxl : x ∈ l :=
        List.mem_of_mem_filter (by rw [hf]; exact List.mem_cons_self _ _)
      rw [List.foldl_cons]
      exact F.foldl_add_not_finite _ _
        (F.add_not_finite_right _ _ (h x hxl))

theorem zipWith_mul_not_finite (row w : List F)
    (hnf : ∀ y ∈ w, y.isFinite = false) :
    ∀ x ∈ List.zipWith (· * ·) row w, x.isFinite = false := by
  induction row generalizing w with
  | nil => simp
  | cons r rs ih =>
      cases w with
      | nil => simp
      | cons y ys =>
          intro x hx
          rw [List.zipWith_cons_cons, List.mem_cons] at hx
          rcases hx with rfl | hx
          · exact F.mul_not_finite_right _ _ (hnf y (by simp))
          · exact ih ys (fun z hz => hnf z (List.mem_cons_of_mem _ hz)) x hx

theorem portRow_not_finite_or_zero (row w : List F)
    (hnf : ∀ y ∈ w, y.isFinite = false) :
    (F.sumF (List.zipWith (· * ·) row w)).isFinite = false ∨
      F.sumF (List.zipWith (· * ·) row w) = F.fin 0 :=
  sumF_not_finite_or_zero _ (zipWith_mul_not_finite row w hnf)

theorem cumprodGo_not_finite_or_one (l : List F) (acc : F)
    (hacc : acc.isFinite = false ∨ acc = F.fin 1)
    (h : ∀ x ∈ l, x.isFinite = false ∨ x = F.fin 1) :
    ∀ y ∈ F.cumprodGo acc l, y.isFinite = false ∨ y = F.fin 1 := by
  induction l generalizing acc with
  | nil => simp [F.cumprodGo]
  | cons x xs ih =>
      intro y hy
      rw [F.cumprodGo_cons] at hy
      by_cases hx : x = F.nan
      · rw [if_pos hx, List.mem_cons] at hy
        rcases hy with rfl | hy
        · exact Or.inl rfl
        · exact ih acc hacc (fun z hz => h z (List.mem_cons_of_mem _ hz)) y hy
      · rw [if_neg hx, List.mem_cons] at hy
        have hmul : (F.mul acc x).isFinite = false ∨ F.mul acc x = F.fin 1 := by
          rcases h x (by simp) with hxf | hx1
          · exact Or.inl (F.mul_not_finite_right _ _ hxf)
          · rcases hacc with haf | ha1
            · exact Or.inl (F.mul_not_finite_left _ _ haf)
            · right
              rw [ha1, hx1, F.mul_fin_fin]
              norm_num
        rcases hy with rfl | hy
        · exact hmul
        · exact ih (F.mul acc x) hmul
            (fun z hz => h z (List.mem_cons_of_mem _ hz)) y hy

/-- C8 (amended): the engine raises no error on pathological input (all
definitions here are total functions).  With fewer than 2 fully valid
(non-missing) price rows both output series are empty.  With a zero weight
sum every normalized weight is non-finite, and every entry of the output
series is either non-finite (NaN or ±∞) or the degenerate finite value that
pandas' NaN-skipping row sum produces — `0.0` for a portfolio return whose
weighted row is entirely NaN, and the unchanged initial amount for the
corresponding equity entries.  The original all-entries-non-finite reading
fails at weights `[0, 0]` (see the counterexample). -/
theorem backtest_degenerate (prices : List (List F)) (weights : List ℚ)
    (A : ℚ) (hw : weights ≠ [])
    (hrect : ∀ r ∈ prices, r.length = weights.length) :
    ((prices.filter fun r => r.all fun x => !x.isNa).length < 2 →
      backtest_portfolio prices weights A = ([], [])) ∧
    (weights.sum = 0 →
      (∀ x ∈ (backtest_portfolio prices weights A).2,
        x.isFinite = false ∨ x = F.fin 0) ∧
      (∀ x ∈ (backtest_portfolio prices weights A).1,
        x.isFinite = false ∨ x = F.fin A)) := by
  have hk : 0 < weights.length := List.length_pos.mpr hw
  constructor
  · intro hcount
    have hempty := compute_returns_empty prices weights.length hk hrect hcount
    simp [backtest_portfolio, hempty, F.cumprod, F.cumprodGo]
  · intro hsum
    have hport : ∀ x ∈ (backtest_portfolio prices weights A).2,
        x.isFinite = false ∨ x = F.fin 0 := by
      intro x hx
      have hx2 : x ∈ (compute_returns prices).map fun row =>
          F.sumF (List.zipWith (· * ·) row
            (weights.map fun wi => F.fin wi / F.fin weights.sum)) := hx
      obtain ⟨row, hrow, rfl⟩ := List.mem_map.mp hx2
      exact portRow_not_finite_or_zero row _
        (normalized_weights_not_finite weights hsum)
    refine ⟨hport, ?_⟩
    have hb : (backtest_portfolio prices weights A).1 =
        (F.cumprod (((backtest_portfolio prices weights A).2).map
          fun r => F.fin 1 + r)).map (· * F.fin A) := rfl
    rw [hb]
    intro e he
    obtain ⟨y, hy, rfl⟩ := List.mem_map.mp he
    have hcp : y.isFinite = false ∨ y = F.fin 1 := by
      refine cumprodGo_not_finite_or_one _ _ (Or.inr rfl) ?_ y hy
      intro z hz
      obtain ⟨r, hr, rfl⟩ := List.mem_map.mp hz
      rcases hport r hr with hrf | hr0
      · exact Or.inl (F.add_not_finite_right _ _ hrf)
      · right
        rw [hr0, F.fin_add_fin]
        norm_num
    rcases hcp with hyf | hy1
    · exact Or.inl (F.mul_not_finite_left _ _ hyf)
    · right
      rw [hy1, F.fin_mul_fin]
      norm_num

/-- C8 (counterexample): weights `[0, 0]` have zero sum, yet the program's
outputs are the finite values `0.0` (portfolio return) and the unchanged
initial amount (equity): the normalized weights are all NaN, every weighted
row is entirely NaN, and pandas' NaN-skipping row sum turns it into `0.0`,
so nothing non-finite ever reaches the output. -/
theorem zero_weights_finite_outputs :
    ([(0 : ℚ), 0] : List ℚ).sum = 0 ∧
    backtest_portfolio [[F.fin 100, F.fin 50], [F.fin 110, F.fin 55]] [0, 0]
        10000 = ([F.fin 10000], [F.fin 0]) ∧
    (F.fin 10000).isFinite = true ∧ (F.fin 0).isFinite = true := by
  refine ⟨by norm_num, ?_, rfl, rfl⟩
  have hz : (F.fin 0 / F.fin 0 : F) = F.nan := by
    show F.div (F.fin 0) (F.fin 0) = F.nan
    simp [F.div]
  norm_num [backtest_portfolio, compute_returns, dropna, pct_change, pctRow,
    pctCell, F.fin_div_fin, F.sumF, F.cumprod, F.cumprodGo, List.filter, hz]

/-- C8 witness: a single-row table gives empty outputs; weights `[1, -1]`
(zero sum) give outputs whose entries are each non-finite or the degenerate
finite value. -/
theorem backtest_degenerate_witness :
    (([[F.fin 100]] : List (List F)).filter
        fun r => r.all fun x => !x.isNa).length < 2 ∧
    backtest_portfolio [[F.fin 100]] [1] 10000 = ([], []) ∧
    ([(1 : ℚ), -1] : List ℚ).sum = 0 ∧
    (∀ x ∈ (backtest_portfolio [[F.fin 100, F.fin 50], [F.fin 110, F.fin 55]]
        [1, -1] 10000).2, x.isFinite = false ∨ x = F.fin 0) ∧
    (∀ x ∈ (backtest_portfolio [[F.fin 100, F.fin 50], [F.fin 110, F.fin 55]]
        [1, -1] 10000).1, x.isFinite = false ∨ x = F.fin 10000) := by
  have h1 := (backtest_degenerate [[F.fin 100]] [1] 10000 (by simp)
    (by intro r hr; simp at hr; subst hr; simp)).1 (by norm_num [List.filter])
  have h2 := (backtest_degenerate [[F.fin 100, F.fin 50], [F.fin 110, F.fin 55]]
    [1, -1] 10000 (by simp)
    (by intro r hr; fin_cases hr <;> simp)).2 (by norm_num)
  exact ⟨by norm_num [List.filter], h1, by norm_num, h2.1, h2.2⟩

/-- Spec-side simple-return series of one ticker (§8 single-asset identity):
one return `(price[t] - price[t-1]) / price[t-1]` per adjacent pair of
stored prices, skipping pairs with a missing value. -/
def specSingleReturns (col : List F) : List F :=
  (List.zipWith (fun p c => (p, c)) col col.tail).filterMap fun pc =>
    if pc.1.isNa || pc.2.isNa then none else some ((pc.2 - pc.1) / pc.1)

theorem portRow_single (r : F) (hr : r ≠ F.nan) :
    F.sumF (List.zipWith (· * ·) [r] [F.fin 1]) = r := by
  cases r
  · norm_num [F.sumF, F.mul, F.add, List.filter]
  · norm_num [F.sumF, F.mul, F.add, List.filter, F.isNa] <;> rfl
  · norm_num [F.sumF, F.mul, F.add, List.filter, F.isNa] <;> rfl
  · exact absurd rfl hr

theorem map_port_specReturns_single (col : List F)
    (hcells : ∀ x ∈ col, goodCell x) :
    ((specReturns (col.map fun p => [p])).map
        fun row => F.sumF (List.zipWith (· * ·) row [F.fin 1])) =
      specSingleReturns col := by
  induction col with
  | nil => rfl
  | cons p rest ih =>
      cases rest with
      | nil => rfl
      | cons c rest2 =>
          have ih2 := ih fun x hx => hcells x (List.mem_cons_of_mem _ hx)
          rw [specReturns, specSingleReturns] at ih2 ⊢
          simp only [List.map_cons, List.tail_cons, List.zipWith_cons_cons,
            List.filterMap_cons] at ih2 ⊢
          by_cases hp : p.isNa
          · have hcond : (([p].all fun x => !x.isNa) &&
                ([c].all fun x => !x.isNa)) = false := by
              simp [hp]
            rw [hcond]
            simp only [Bool.false_eq_true, if_false]
            have hcond2 : (p.isNa || c.isNa) = true := by simp [hp]
            rw [hcond2]
            simp only [if_true]
            exact ih2
          · by_cases hc : c.isNa
            · have hcond : (([p].all fun x => !x.isNa) &&
                  ([c].all fun x => !x.isNa)) = false := by
                simp [hc]
              rw [hcond]
              simp only [Bool.false_eq_true, if_false]
              have hcond2 : (p.isNa || c.isNa) = true := by simp [hc]
              rw [hcond2]
              simp only [if_true]
              exact ih2
            · have hcond : (([p].all fun x => !x.isNa) &&
                  ([c].all fun x => !x.isNa)) = true := by
                simp [hp, hc]
              rw [hcond]
              simp only [if_true]
              have hcond2 : (p.isNa || c.isNa) = false := by
                simp [hp, hc]
              rw [hcond2]
              simp only [Bool.false_eq_true, if_false]
              rw [List.map_cons]
              refine List.cons_eq_cons.mpr ⟨?_, ih2⟩
              rcases hcells p (by simp) with hpn | ⟨a, ha, rfl⟩
              · rw [hpn] at hp
                simp [F.isNa] at hp
              rcases hcells c (by simp) with hcn | ⟨b, _, rfl⟩
              · rw [hcn] at hc
                simp [F.isNa] at hc
              have hv : (F.fin b - F.fin a) / F.fin a = F.fin ((b - a) / a) := by
                rw [F.fin_sub_fin, F.fin_div_fin _ _ ha]
              simp only [hv]
              simpa using portRow_single (F.fin ((b - a) / a)) (by simp)

/-- C9: for a single-ticker table (cells missing or nonzero finite prices)
with at least 2 valid rows and weight vector `[1.0]`, the portfolio return
series equals the ticker's own simple-return series
`(price[t] - price[t-1]) / price[t-1]`, entry for entry. -/
theorem single_asset_identity (col : List F) (A : ℚ)
    (hcells : ∀ x ∈ col, goodCell x)
    (h2 : 2 ≤ (col.filter fun x => !x.isNa).length) :
    (backtest_portfolio (col.map fun p => [p]) [1] A).2 =
      specSingleReturns col := by
  have hw : (([1] : List ℚ).map
        fun wi => F.fin wi / F.fin ([1] : List ℚ).sum) = [F.fin 1] := by
    norm_num [F.fin_div_fin]
  have hcr : compute_returns (col.map fun p => [p]) =
      specReturns (col.map fun p => [p]) := by
    refine compute_returns_eq_specReturns _ 1 (by norm_num) ?_ ?_
    · intro r hr
      obtain ⟨x, _, rfl⟩ := List.mem_map.mp hr
      simp
    · intro r hr
      obtain ⟨x, hx, rfl⟩ := List.mem_map.mp hr
      intro y hy
      rw [List.mem_singleton] at hy
      rw [hy]
      exact hcells x hx
  show (compute_returns (col.map fun p => [p])).map
      (fun row => F.sumF (List.zipWith (· * ·) row
        (([1] : List ℚ).map fun wi => F.fin wi / F.fin ([1] : List ℚ).sum))) = _
  rw [hw, hcr]
  exact map_port_specReturns_single col hcells

/-- C9 witness: the single ticker `[100, 110, 99]` with weight `[1.0]`. -/
theorem single_asset_identity_witness :
    (∀ x ∈ [F.fin 100, F.fin 110, F.fin 99], goodCell x) ∧
    2 ≤ ([F.fin 100, F.fin 110, F.fin 99].filter fun x => !x.isNa).length ∧
    (backtest_portfolio ([F.fin 100, F.fin 110, F.fin 99].map fun p => [p])
        [1] 10000).2 = specSingleReturns [F.fin 100, F.fin 110, F.fin 99] := by
  have hcells : ∀ x ∈ [F.fin 100, F.fin 110, F.fin 99], goodCell x := by
    intro x hx
    fin_cases hx
    · exact Or.inr ⟨100, by norm_num, rfl⟩
    · exact Or.inr ⟨110, by norm_num, rfl⟩
    · exact Or.inr ⟨99, by norm_num, rfl⟩
  exact ⟨hcells, by norm_num [List.filter],
    single_asset_identity _ 10000 hcells (by norm_num [List.filter])⟩

theorem cumprodQ_pos (l : List ℚ) (a : ℚ) (ha : 0 < a)
    (hl : ∀ x ∈ l, 0 < x) : ∀ y ∈ cumprodQ a l, 0 < y := by
  induction l generalizing a with
  | nil => simp [cumprodQ]
  | cons x xs ih =>
      intro y hy
      rw [cumprodQ, List.mem_cons] at hy
      have hx : 0 < x := hl x (by simp)
      rcases hy with rfl | hy
      · exact mul_pos ha hx
      · exact ih (a * x) (mul_pos ha hx)
          (fun w hw => hl w (List.mem_cons_of_mem _ hw)) y hy

theorem cummax_drawdowns_gt (xs : List ℚ) (a : ℚ) (ha : 0 < a)
    (hxs : ∀ y ∈ xs, 0 < y) :
    ∀ d ∈ List.zipWith (fun e m => e / m - 1) xs (cummaxQ a xs), -1 < d := by
  induction xs generalizing a with
  | nil => simp [cummaxQ]
  | cons y ys ih =>
      intro d hd
      rw [cummaxQ, List.zipWith_cons_cons, List.mem_cons] at hd
      have hy : 0 < y := hxs y (by simp)
      have hmax : (0 : ℚ) < max a y := lt_max_of_lt_left ha
      rcases hd with rfl | hd
      · have : 0 < y / max a y := div_pos hy hmax
        linarith
      · exact ih (max a y) (lt_max_of_lt_left ha)
          (fun w hw => hxs w (List.mem_cons_of_mem _ hw)) d hd

theorem foldl_min_gt (ds : List ℚ) (d c : ℚ) (hd : c < d)
    (hds : ∀ x ∈ ds, c < x) : c < ds.foldl min d := by
  induction ds generalizing d with
  | nil => exact hd
  | cons x xs ih =>
      exact ih (min d x) (lt_min hd (hds x (by simp)))
        (fun w hw => hds w (List.mem_cons_of_mem _ hw))

theorem max_drawdown_map_fin (x : ℚ) (xs : List ℚ) (hx : 0 < x)
    (hxs : ∀ y ∈ xs, 0 < y) :
    BT.max_drawdown ((x :: xs).map F.fin) =
      F.fin ((List.zipWith (fun e m => e / m - 1) xs (cummaxQ x xs)).foldl
        min (x / x - 1)) := by
  have hcpos : ∀ z ∈ cummaxQ x xs, 0 < z := cummaxQ_pos xs x hx hxs
  rw [BT.max_drawdown, BT.drawdown, BT.running_max, F.cummax_map_fin]
  rw [zipWith_div_map_fin _ _ (by
    intro y hy
    rcases List.mem_cons.mp hy with rfl | hy
    · exact ne_of_gt hx
    · exact ne_of_gt (hcpos y hy))]
  have hmapsub : ((List.zipWith (· / ·) (x :: xs) (x :: cummaxQ x xs)).map
        F.fin).map (fun d => d - F.fin 1) =
      ((List.zipWith (· / ·) (x :: xs) (x :: cummaxQ x xs)).map
        (fun d => d - 1)).map F.fin := by
    simp only [List.map_map]
    refine List.map_congr_left fun d _ => ?_
    simp
  rw [hmapsub]
  have hz : (List.zipWith (· / ·) (x :: xs) (x :: cummaxQ x xs)).map
        (fun d => d - 1) =
      (x / x - 1) :: List.zipWith (fun e m => e / m - 1) xs (cummaxQ x xs) := by
    rw [List.zipWith_cons_cons, List.map_cons]
    refine List.cons_eq_cons.mpr ⟨rfl, ?_⟩
    rw [List.map_zipWith]
  rw [hz]
  exact F.seriesMin_map_fin _ _

theorem cummax_map_fin_pos (el : List ℚ) (h : ∀ z ∈ el, 0 < z) :
    ∀ m ∈ F.cummax (el.map F.fin), ∃ q : ℚ, 0 < q ∧ m = F.fin q := by
  cases el with
  | nil => simp [F.cummax, F.cummaxGo]
  | cons x xs =>
      rw [F.cummax_map_fin]
      intro m hm
      obtain ⟨z, hz, rfl⟩ := List.mem_map.mp hm
      refine ⟨z, ?_, rfl⟩
      rcases List.mem_cons.mp hz with rfl | hz
      · exact h z (by simp)
      · exact cummaxQ_pos xs x (h x (by simp))
          (fun w hw => h w (List.mem_cons_of_mem _ hw)) z hz

theorem backtest_equity_eq (prices : List (List F)) (weights : List ℚ)
    (A : ℚ) (qs : List ℚ)
    (hport : (backtest_portfolio prices weights A).2 = qs.map F.fin) :
    (backtest_portfolio prices weights A).1 =
      ((cumprodQ 1 (qs.map fun q => 1 + q)).map fun x => x * A).map F.fin := by
  have hb : (backtest_portfolio prices weights A).1 =
      (F.cumprod ((backtest_portfolio prices weights A).2.map
        fun r => F.fin 1 + r)).map (· * F.fin A) := rfl
  rw [hb, hport]
  have hmm : ((qs.map F.fin).map fun r => F.fin 1 + r) =
      (qs.map fun q => 1 + q).map F.fin := by
    simp only [List.map_map]
    refine List.map_congr_left fun q _ => ?_
    simp
  rw [hmm, F.cumprod_map_fin]
  simp only [List.map_map]
  refine List.map_congr_left fun z _ => ?_
  simp

/-- C10: with initial amount > 0 and every computed portfolio return a
finite value strictly greater than -1, every entry of the equity curve is a
strictly positive finite value; consequently every entry of the running
maximum used by `compute_metrics` (the drawdown divisors) is strictly
positive — so the drawdown division never divides by zero — and on a
non-empty equity curve `max_drawdown` is a finite value strictly greater
than -1. -/
theorem equity_positive (prices : List (List F)) (weights : List ℚ)
    (A rfr : ℚ) (hA : 0 < A)
    (hret : ∀ r ∈ (backtest_portfolio prices weights A).2,
      ∃ q : ℚ, -1 < q ∧ r = F.fin q) :
    (∀ e ∈ (backtest_portfolio prices weights A).1,
      ∃ q : ℚ, 0 < q ∧ e = F.fin q) ∧
    (∀ m ∈ BT.running_max (backtest_portfolio prices weights A).1,
      ∃ q : ℚ, 0 < q ∧ m = F.fin q) ∧
    ((backtest_portfolio prices weights A).1 ≠ [] →
      ∃ q : ℚ, -1 < q ∧
        (compute_metrics (backtest_portfolio prices weights A).1
          (backtest_portfolio prices weights A).2 rfr).max_drawdown =
          F.fin q) := by
  obtain ⟨qs, hqs, hport⟩ := mem_map_fin_decomp _ _ hret
  have heq := backtest_equity_eq prices weights A qs hport
  have hpos1 : ∀ z ∈ (cumprodQ 1 (qs.map fun q => 1 + q)).map fun x => x * A,
      0 < z := by
    intro z hz
    obtain ⟨y, hy, rfl⟩ := List.mem_map.mp hz
    have hypos : 0 < y := by
      refine cumprodQ_pos _ 1 one_pos ?_ y hy
      intro w hw
      obtain ⟨q, hq, rfl⟩ := List.mem_map.mp hw
      have := hqs q hq
      linarith
    exact mul_pos hypos hA
  have hequity : ∀ e ∈ (backtest_portfolio prices weights A).1,
      ∃ q : ℚ, 0 < q ∧ e = F.fin q := by
    rw [heq]
    intro e he
    obtain ⟨z, hz, rfl⟩ := List.mem_map.mp he
    exact ⟨z, hpos1 z hz, rfl⟩
  refine ⟨hequity, ?_, ?_⟩
  · rw [BT.running_max, heq]
    exact cummax_map_fin_pos _ hpos1
  · intro hne
    have hproj : (compute_metrics (backtest_portfolio prices weights A).1
        (backtest_portfolio prices weights A).2 rfr).max_drawdown =
      BT.max_drawdown (backtest_portfolio prices weights A).1 := rfl
    rw [hproj, heq]
    rw [heq] at hne
    cases hel : (cumprodQ 1 (qs.map fun q => 1 + q)).map fun x => x * A with
    | nil =>
        rw [hel] at hne
        simp at hne
    | cons x xs =>
        have hx : 0 < x := hpos1 x (by rw [hel]; simp)
        have hxs : ∀ y ∈ xs, 0 < y := fun y hy =>
          hpos1 y (by rw [hel]; exact List.mem_cons_of_mem _ hy)
        rw [max_drawdown_map_fin x xs hx hxs]
        refine ⟨_, ?_, rfl⟩
        refine foldl_min_gt _ _ _ ?_ (cummax_drawdowns_gt xs x hx hxs)
        have hzero : x / x - 1 = 0 := by
          rw [div_self (ne_of_gt hx)]
          ring
        rw [hzero]
        norm_num

/-- C10 witness: the single ticker `[100, 110, 99]`, weight `[1]`, initial
amount 10000: equity `[11000, 9900]` is positive and the drawdown is
well defined. -/
theorem equity_positive_witness :
    (0 : ℚ) < 10000 ∧
    (∀ e ∈ (backtest_portfolio [[F.fin 100], [F.fin 110], [F.fin 99]] [1]
        10000).1, ∃ q : ℚ, 0 < q ∧ e = F.fin q) ∧
    (∃ q : ℚ, -1 < q ∧
      (compute_metrics (backtest_portfolio [[F.fin 100], [F.fin 110],
          [F.fin 99]] [1] 10000).1
        (backtest_portfolio [[F.fin 100], [F.fin 110], [F.fin 99]] [1]
          10000).2 0).max_drawdown = F.fin q) := by
  have hport : (backtest_portfolio [[F.fin 100], [F.fin 110], [F.fin 99]] [1]
      10000).2 = [F.fin (1/10), F.fin (-1/10)] := by
    norm_num [backtest_portfolio, compute_returns, dropna, pct_change, pctRow,
      pctCell, F.fin_div_fin, F.sumF, F.cumprod, F.cumprodGo, List.filter]
  have hequity : (backtest_portfolio [[F.fin 100], [F.fin 110], [F.fin 99]] [1]
      10000).1 = [F.fin 11000, F.fin 9900] := by
    norm_num [backtest_portfolio, compute_returns, dropna, pct_change, pctRow,
      pctCell, F.fin_div_fin, F.sumF, F.cumprod, F.cumprodGo, List.filter]
  have hret : ∀ r ∈ (backtest_portfolio [[F.fin 100], [F.fin 110], [F.fin 99]]
      [1] 10000).2, ∃ q : ℚ, -1 < q ∧ r = F.fin q := by
    rw [hport]
    intro r hr
    rcases List.mem_cons.mp hr with rfl | hr
    · exact ⟨1/10, by norm_num, rfl⟩
    · rcases List.mem_cons.mp hr with rfl | hr
      · exact ⟨-1/10, by norm_num, rfl⟩
      · simp at hr
  have h := equity_positive [[F.fin 100], [F.fin 110], [F.fin 99]] [1]
    10000 0 (by norm_num) hret
  exact ⟨by norm_num, h.1, h.2.2 (by rw [hequity]; simp)⟩
